import Mathlib

/-!
Verification of the fidelity/optimization core of the qubit-network
gate-learning library (`src/qubit_network/model.py` and
`src/qubit_network/QubitNetwork.py`).

States are "big-real" kets: a complex vector of length `N` is stored as a
real vector of length `2*N`, the first half holding the real parts and the
second half the imaginary parts.  All numeric code is embedded over `ℚ`
(the source operates on exact real arithmetic as far as the claims are
concerned; no claim depends on floating-point rounding).
-/

/-- Index of the `i`-th entry of the first (real) half of a big-real
vector of length `2*N`. -/
def loIdx {N : ℕ} (i : Fin N) : Fin (2 * N) :=
  ⟨i.1, by have h := i.2; omega⟩

/-- Index of the `i`-th entry of the second (imaginary) half of a big-real
vector of length `2*N`. -/
def hiIdx {N : ℕ} (i : Fin N) : Fin (2 * N) :=
  ⟨N + i.1, by have h := i.2; omega⟩

/-- Index `r * A + k` of an `S*A` matrix partitioned into `S × S` blocks of
size `A × A`: entry `k` on the diagonal of block `(r, _)`.  This is the
index arithmetic of `matrix[row_idx * subm_dim : (row_idx+1) * subm_dim, ...]`
in `_compute_fidelities_col_fn`. -/
def blkIdx {S A : ℕ} (r : Fin S) (k : Fin A) : Fin (S * A) :=
  ⟨r.1 * A + k.1, by
    have h1 : r.1 * A + k.1 < (r.1 + 1) * A := by rw [Nat.succ_mul]; omega
    exact lt_of_lt_of_le h1 (Nat.mul_le_mul_right A r.2)⟩

/-- Embedding of `_split_bigreal_ket` from `model.py`: splits a big-real vector of
length `2*N` into its first (real) and second (imaginary) halves. -/
def split_bigreal_ket {N : ℕ} (ket : Fin (2 * N) → ℚ) : (Fin N → ℚ) × (Fin N → ℚ) :=
  (fun i => ket (loIdx i), fun i => ket (hiIdx i))

/-- Embedding of `_ket_to_dm` from `model.py`: density matrix of a big-real ket, as the
pair `(dm_real, dm_imag)` with
`dm_real = ψ_r ψ_rᵀ + ψ_i ψ_iᵀ` and `dm_imag = ψ_i ψ_rᵀ - ψ_r ψ_iᵀ`. -/
def ket_to_dm {N : ℕ} (ket : Fin (2 * N) → ℚ) :
    (Fin N → Fin N → ℚ) × (Fin N → Fin N → ℚ) :=
  ((fun u v => (split_bigreal_ket ket).1 u * (split_bigreal_ket ket).1 v
      + (split_bigreal_ket ket).2 u * (split_bigreal_ket ket).2 v),
   (fun u v => (split_bigreal_ket ket).2 u * (split_bigreal_ket ket).1 v
      - (split_bigreal_ket ket).1 u * (split_bigreal_ket ket).2 v))

/-- Block partial trace from `_compute_fidelities_row_fn`/`_compute_fidelities_col_fn`:
the `S*A` matrix is partitioned into an `S × S` grid of `A × A` blocks, and
entry `(r, c)` of the result is the trace of block `(r, c)`. -/
def ptraceBlocks (S A : ℕ) (M : Fin (S * A) → Fin (S * A) → ℚ) :
    Fin S → Fin S → ℚ :=
  fun r c => ∑ k : Fin A, M (blkIdx r k) (blkIdx c k)

/-- Concatenation of two length-`S` vectors into a length-`2*S` vector
(`T.concatenate` on big-real halves). -/
def concatHalves {S : ℕ} (f g : Fin S → ℚ) : Fin (2 * S) → ℚ :=
  fun v => Fin.addCases (motive := fun _ => ℚ) f g (finCongr (two_mul S) v)

/-- The `psi_tilde` vector of `_fidelity_with_ptrace`:
`T.concatenate((-target_imag, target_real))`. -/
def psiTilde {S : ℕ} (target : Fin (2 * S) → ℚ) : Fin (2 * S) → ℚ :=
  concatHalves (fun i => -(split_bigreal_ket target).2 i)
    (fun i => (split_bigreal_ket target).1 i)

/-- The `big_dm` matrix of `_fidelity_with_ptrace`: the block matrix
`[[dm_imag_traced, dm_real_traced], [-dm_real_traced, dm_imag_traced]]`,
built by concatenating rows of concatenated columns. -/
def bigDm {S : ℕ} (dmR dmI : Fin S → Fin S → ℚ) :
    Fin (2 * S) → Fin (2 * S) → ℚ :=
  fun u v =>
    Fin.addCases (motive := fun _ => ℚ)
      (fun ur => concatHalves (fun vc => dmI ur vc) (fun vc => dmR ur vc) v)
      (fun ur => concatHalves (fun vc => -dmR ur vc) (fun vc => dmI ur vc) v)
      (finCongr (two_mul S) u)

/-- Body of `_fidelity_with_ptrace` from `model.py`, for one evolved state
`psi` (big-real, length `2*(S*A)`) and one target state (big-real, length
`2*S`): build `(dm_real, dm_imag)` from the ket, block-partial-trace both,
and return `psi_target . big_dm . psi_tilde`.  The block size `A` is
`2 ** num_ancillae` in the source; it is kept as a parameter here and
instantiated by `fidelity_with_ptrace`. -/
def fidelityPtraceCore (S A : ℕ) (psi : Fin (2 * (S * A)) → ℚ)
    (target : Fin (2 * S) → ℚ) : ℚ :=
  ∑ u, ∑ v,
    target u
      * bigDm (ptraceBlocks S A (ket_to_dm psi).1) (ptraceBlocks S A (ket_to_dm psi).2) u v
      * psiTilde target v

/-- Embedding of `_fidelity_with_ptrace` from `model.py`: the per-sample fidelity with
ancilla partial trace; the submatrix dimension is `2 ** num_ancillae`. -/
def fidelity_with_ptrace (num_ancillae S : ℕ)
    (psi : Fin (2 * (S * 2 ^ num_ancillae)) → ℚ) (target : Fin (2 * S) → ℚ) : ℚ :=
  fidelityPtraceCore S (2 ^ num_ancillae) psi target

/-- Embedding of `_fidelity_no_ptrace` from `model.py`: fidelity of two same-length
big-real kets, `fidelity_real ** 2 + fidelity_imag ** 2` with
`fidelity_real = Re·Re + Im·Im` and `fidelity_imag = Re·Im - Im·Re`. -/
def fidelity_no_ptrace {S : ℕ} (state target : Fin (2 * S) → ℚ) : ℚ :=
  ((∑ i, (split_bigreal_ket state).1 i * (split_bigreal_ket target).1 i)
      + ∑ i, (split_bigreal_ket state).2 i * (split_bigreal_ket target).2 i) ^ 2
    + ((∑ i, (split_bigreal_ket state).1 i * (split_bigreal_ket target).2 i)
      - ∑ i, (split_bigreal_ket state).2 i * (split_bigreal_ket target).1 i) ^ 2

/-- Modelled from the spec (section 4.3, step 3): `Re(<target|rho_reduced|target>)`
for a target with real part `a` and imaginary part `b` against a reduced
density matrix with real part `Ar` and imaginary part `Ai`, expanded in
real components: `Re((a - i b)ᵀ (Ar + i Ai) (a + i b))`. -/
def reExpectation (S : ℕ) (Ar Ai : Fin S → Fin S → ℚ) (a b : Fin S → ℚ) : ℚ :=
  ∑ i, ∑ j,
    (a i * Ar i j * a j + b i * Ar i j * b j + b i * Ai i j * a j - a i * Ai i j * b j)

/-- Concrete evolved state for the C1 witness: one system qubit worth of
amplitude on the first basis vector of a 1-system-qubit + 1-ancilla network. -/
def psiC1 : Fin (2 * (2 ^ 0 * 2 ^ 1)) → ℚ := ![1, 0, 0, 0]

/-- Concrete normalized target state for the C1 witness. -/
def targetC1 : Fin (2 * 2 ^ 0) → ℚ := ![1, 0]

/-- Real part of the complex overlap between the target and the `k`-th
ancilla slice of the evolved state (`<target ⊗ e_k | psi>`). -/
def overlapRe (S A : ℕ) (psi : Fin (2 * (S * A)) → ℚ) (target : Fin (2 * S) → ℚ)
    (k : Fin A) : ℚ :=
  ∑ r, (target (loIdx r) * psi (loIdx (blkIdx r k))
    + target (hiIdx r) * psi (hiIdx (blkIdx r k)))

/-- Imaginary part of the complex overlap between the target and the `k`-th
ancilla slice of the evolved state. -/
def overlapIm (S A : ℕ) (psi : Fin (2 * (S * A)) → ℚ) (target : Fin (2 * S) → ℚ)
    (k : Fin A) : ℚ :=
  ∑ r, (target (loIdx r) * psi (hiIdx (blkIdx r k))
    - target (hiIdx r) * psi (loIdx (blkIdx r k)))

/-- Modelled from the spec (section 4.3): real part of the complex inner
product `<target|psi>` of two big-real kets. -/
def innerRe {S : ℕ} (target psi : Fin (2 * S) → ℚ) : ℚ :=
  ∑ i, ((split_bigreal_ket target).1 i * (split_bigreal_ket psi).1 i
    + (split_bigreal_ket target).2 i * (split_bigreal_ket psi).2 i)

/-- Modelled from the spec (section 4.3): imaginary part of the complex
inner product `<target|psi>` of two big-real kets. -/
def innerIm {S : ℕ} (target psi : Fin (2 * S) → ℚ) : ℚ :=
  ∑ i, ((split_bigreal_ket target).1 i * (split_bigreal_ket psi).2 i
    - (split_bigreal_ket target).2 i * (split_bigreal_ket psi).1 i)

/-- The evolved-state argument of the no-ancilla path, re-indexed to the
`S * 1`-block shape expected by the partial-trace path. -/
def padCast (S : ℕ) (state : Fin (2 * S) → ℚ) : Fin (2 * (S * 1)) → ℚ :=
  fun j => state (Fin.cast (by ring) j)

/-- Concrete normalized evolved state for the C2 witness. -/
def stateC2 : Fin (2 * 1) → ℚ := ![1, 0]

/-- Concrete normalized target state for the C2 witness. -/
def targetC2 : Fin (2 * 1) → ℚ := ![0, 1]

/-- Concrete evolved state for the C6 witness (one system qubit, one ancilla). -/
def psiC6 : Fin (2 * (2 * 2 ^ 1)) → ℚ := ![0, 1, 0, 0, 0, 0, 0, 0]

/-- Concrete normalized target state for the C6 witness. -/
def targetC6 : Fin (2 * 2) → ℚ := ![0, 1, 0, 0]

/-- Concrete state pair for the no-ancilla part of the C6 witness. -/
def stateC6 : Fin (2 * 1) → ℚ := ![0, 1]

/-- Pauli axis labels (the characters of the interaction strings). -/
inductive Axis where
  | x
  | y
  | z
deriving DecidableEq

/-- The imaginary unit of the Gaussian integers; Pauli-matrix entries and
the global `-1j` factor live in `ℤ[i]`. -/
def gi : GaussianInt := ⟨0, 1⟩

/-- The identity matrix `qutip.qeye(2)`. -/
def qeye2 : Fin 2 → Fin 2 → GaussianInt := ![![1, 0], ![0, 1]]

/-- The Pauli matrix `qutip.sigmax()`. -/
def sigmax : Fin 2 → Fin 2 → GaussianInt := ![![0, 1], ![1, 0]]

/-- The Pauli matrix `qutip.sigmay()`. -/
def sigmay : Fin 2 → Fin 2 → GaussianInt := ![![0, -gi], ![gi, 0]]

/-- The Pauli matrix `qutip.sigmaz()`. -/
def sigmaz : Fin 2 → Fin 2 → GaussianInt := ![![1, 0], ![0, -1]]

/-- The `sigmas` list of `build_H_factor`. -/
def sigmas : Fin 4 → (Fin 2 → Fin 2 → GaussianInt) := ![qeye2, sigmax, sigmay, sigmaz]

/-- Modelled from the spec: `utils.chars2pair` is not under `src/`; per the
spec, axis `x`/`y`/`z` selects the corresponding Pauli matrix, i.e. index
1/2/3 into the `sigmas` list. -/
def chars2pairAxis : Axis → Fin 4
  | .x => 1
  | .y => 2
  | .z => 3

/-- An interaction term: a single qubit with one Pauli axis, or an ordered
qubit pair with a pair of Pauli axes (the `pair` argument of
`build_H_factor`). -/
inductive Interaction (n : ℕ) where
  | selfint (q : Fin n) (ax : Axis)
  | pairint (q1 q2 : Fin n) (ax1 ax2 : Axis)
deriving DecidableEq

/-- The `term` list built imperatively by `build_H_factor`: start from
`num_qubits` identity matrices, then overwrite the interacting position(s)
with the selected Pauli matrix(es). -/
def interactionTerm (n : ℕ) : Interaction n → (Fin n → (Fin 2 → Fin 2 → GaussianInt))
  | .selfint q ax => Function.update (fun _ => qeye2) q (sigmas (chars2pairAxis ax))
  | .pairint q1 q2 ax1 ax2 =>
      Function.update
        (Function.update (fun _ => qeye2) q1 (sigmas (chars2pairAxis ax1)))
        q2 (sigmas (chars2pairAxis ax2))

/-- Bit `k` (most significant first, qutip tensor ordering) of a row or
column index of a `2^n`-dimensional matrix. -/
def bitAt (n : ℕ) (r : Fin (2 ^ n)) (k : Fin n) : Fin 2 :=
  ⟨r.1 / 2 ^ (n - 1 - k.1) % 2, Nat.mod_lt _ (by norm_num)⟩

/-- Embedding of `qutip.tensor`: the `n`-fold Kronecker product of `2 × 2` matrices,
entrywise the product over tensor positions of the factor entries at the
corresponding index bits. -/
def kronN (n : ℕ) (Ms : Fin n → (Fin 2 → Fin 2 → GaussianInt)) :
    Fin (2 ^ n) → Fin (2 ^ n) → GaussianInt :=
  fun r c => ∏ k : Fin n, Ms k (bitAt n r k) (bitAt n c k)

/-- Modelled from the spec: `utils.complex2bigreal` is not under `src/`;
per the spec, the big-real form of a complex matrix `M = A + iB` is the
block matrix `[[A, -B], [B, A]]`. -/
def complex2bigreal {N : ℕ} (M : Fin N → Fin N → GaussianInt) :
    Fin (2 * N) → Fin (2 * N) → ℚ :=
  fun u v =>
    Fin.addCases (motive := fun _ => ℚ)
      (fun ur => Fin.addCases (motive := fun _ => ℚ)
        (fun vc => ((M ur vc).re : ℚ))
        (fun vc => -((M ur vc).im : ℚ))
        (finCongr (two_mul N) v))
      (fun ur => Fin.addCases (motive := fun _ => ℚ)
        (fun vc => ((M ur vc).im : ℚ))
        (fun vc => ((M ur vc).re : ℚ))
        (finCongr (two_mul N) v))
      (finCongr (two_mul N) u)

/-- Embedding of `build_H_factor` from `QubitNetwork.py`: big-real form of `-1j` times
the `num_qubits`-fold tensor product with the Paulis substituted. -/
def build_H_factor (n : ℕ) (pair : Interaction n) :
    Fin (2 * 2 ^ n) → Fin (2 * 2 ^ n) → ℚ :=
  complex2bigreal (fun r c => -gi * kronN n (interactionTerm n pair) r c)

/-- The Pauli matrix named by an axis (the spec-side description of the
substitution). -/
def pauliOfAxis : Axis → (Fin 2 → Fin 2 → GaussianInt)
  | .x => sigmax
  | .y => sigmay
  | .z => sigmaz

/-- Spec-side substitution for a self-interaction: identities everywhere
except the Pauli at the interacting qubit. -/
def substitutedOne (n : ℕ) (q : Fin n) (ax : Axis) :
    Fin n → (Fin 2 → Fin 2 → GaussianInt) :=
  fun k => if k = q then pauliOfAxis ax else qeye2

/-- Spec-side substitution for a pairwise interaction: identities
everywhere except the two Paulis at the interacting qubits. -/
def substitutedTwo (n : ℕ) (q1 q2 : Fin n) (ax1 ax2 : Axis) :
    Fin n → (Fin 2 → Fin 2 → GaussianInt) :=
  fun k => if k = q1 then pauliOfAxis ax1 else if k = q2 then pauliOfAxis ax2 else qeye2

/-- The `factors` array of `build_H_factors` (no-topology branch): the
`idx`-th entry is `build_H_factor` of the `idx`-th interaction. -/
def hFactors (n : ℕ) (ints : List (Interaction n)) :
    Fin ints.length → (Fin (2 * 2 ^ n) → Fin (2 * 2 ^ n) → ℚ) :=
  fun i => build_H_factor n (ints.get i)

/-- Symbolic (theano) mode of `build_H_factors` (no-topology branch):
`T.tensordot(_J, factors, axes=1)` builds a deferred graph, here the
function of the parameter vector it denotes. -/
def build_H_factors_symbolic (n : ℕ) (ints : List (Interaction n)) :
    (Fin ints.length → ℚ) → (Fin (2 * 2 ^ n) → Fin (2 * 2 ^ n) → ℚ) :=
  fun J u v => ∑ i, J i * hFactors n ints i u v

/-- Numeric (numpy) mode of `build_H_factors` (no-topology branch):
`np.tensordot(_J, factors, axes=1)` at a concrete parameter vector. -/
def build_H_factors_numeric (n : ℕ) (ints : List (Interaction n))
    (J : Fin ints.length → ℚ) : Fin (2 * 2 ^ n) → Fin (2 * 2 ^ n) → ℚ :=
  fun u v => ∑ i, J i * hFactors n ints i u v

/-- Embedding of `parse_interactions`, topology branch: the number of trainable
parameters is `len(set(net_topology.values()))`.  The topology dict is
embedded as an association list in insertion order. -/
def num_interactions_topology (n : ℕ) (topo : List (Interaction n × String)) : ℕ :=
  (topo.map Prod.snd).dedup.length

/-- The list `sorted(set(net_topology.values()))`: the canonical ordered list of
distinct symbols, lexicographically sorted. -/
def topologySymbols (n : ℕ) (topo : List (Interaction n × String)) : List String :=
  (topo.map Prod.snd).toFinset.sort (· ≤ ·)

/-- The comparison `str(label) == symb` used to collect the entries of one
symbol. -/
def labelEq {n : ℕ} (s : String) (p : Interaction n × String) : Bool :=
  p.2 = s

/-- The accumulation `factors[idx] += build_H_factor(pair)` over all `(pair, label)` entries
with `label == symb`: the aggregated basis matrix of one symbol. -/
def topologyFactor (n : ℕ) (topo : List (Interaction n × String)) (s : String) :
    Fin (2 * 2 ^ n) → Fin (2 * 2 ^ n) → ℚ :=
  ((topo.filter (labelEq s)).map (fun p => build_H_factor n p.1)).sum

/-- Symbolic mode of `build_H_factors` (topology branch). -/
def build_H_factors_topology_symbolic (n : ℕ) (topo : List (Interaction n × String)) :
    (Fin (topologySymbols n topo).length → ℚ)
      → (Fin (2 * 2 ^ n) → Fin (2 * 2 ^ n) → ℚ) :=
  fun J u v => ∑ i, J i * topologyFactor n topo ((topologySymbols n topo).get i) u v

/-- Numeric mode of `build_H_factors` (topology branch). -/
def build_H_factors_topology_numeric (n : ℕ) (topo : List (Interaction n × String))
    (J : Fin (topologySymbols n topo).length → ℚ) :
    Fin (2 * 2 ^ n) → Fin (2 * 2 ^ n) → ℚ :=
  fun u v => ∑ i, J i * topologyFactor n topo ((topologySymbols n topo).get i) u v

/-- First concrete topology for the C5 witness: three `x/y/z`
self-interactions of qubit 0, two sharing symbol `a`. -/
def topoW1 : List (Interaction 1 × String) :=
  [(.selfint 0 .x, "a"), (.selfint 0 .y, "a"), (.selfint 0 .z, "b")]

/-- The same topology entries in a different insertion order. -/
def topoW2 : List (Interaction 1 × String) :=
  [(.selfint 0 .z, "b"), (.selfint 0 .x, "a"), (.selfint 0 .y, "a")]

/-- The epoch loop of `Optimizer._run`, with the epoch body abstracted:
`train` is `train_epoch` (parameter updates over the minibatches),
`measure` is `test_model` (held-out test-set mean fidelity, recorded in the
log), and `updateLr` is the learning-rate update performed after the
convergence check.  Per epoch the loop trains, records the measured
fidelity, stops if it equals `1`, and otherwise updates the learning rate
and continues.  Returns the final state and the recorded fidelity log. -/
def optimizerLoop {σ : Type} (train : σ → σ) (measure : σ → ℚ)
    (updateLr : ℕ → σ → σ) : ℕ → ℕ → σ → σ × List ℚ
  | 0, _, s => (s, [])
  | n + 1, epoch, s =>
    let s1 := train s
    let f := measure s1
    if f = 1 then (s1, [f])
    else
      let rest := optimizerLoop train measure updateLr n (epoch + 1) (updateLr epoch s1)
      (rest.1, f :: rest.2)

/-- Embedding of `Optimizer._run`: runs the epoch loop for `n_epochs` epochs starting at
epoch counter `0`. -/
def optimizerRun {σ : Type} (train : σ → σ) (measure : σ → ℚ)
    (updateLr : ℕ → σ → σ) (n_epochs : ℕ) (s : σ) : σ × List ℚ :=
  optimizerLoop train measure updateLr n_epochs 0 s

/-- The state at the start of epoch `e + i` of an uninterrupted run that is
at state `s` at the start of epoch `e`. -/
def stFrom {σ : Type} (train : σ → σ) (updateLr : ℕ → σ → σ) : ℕ → σ → ℕ → σ
  | _, s, 0 => s
  | e, s, i + 1 => stFrom train updateLr (e + 1) (updateLr e (train s)) i

/-- Concrete epoch transition for the C7 witness: the learning-rate update
advances a counter. -/
def lrC7 : ℕ → ℕ → ℕ := fun _ s => s + 1

/-- Concrete test-fidelity measurement for the C7 witness. -/
def measC7 : ℕ → ℚ := fun s => if s = 2 then 1 else 0

/-- Embedding of `np.diff` on a boolean vector: adjacent-pair disagreement flags
(length one less than the input). -/
def npDiffNe : List Bool → List Bool
  | [] => []
  | [_] => []
  | x :: y :: rest => (x != y) :: npDiffNe (y :: rest)

/-- The indices of the `true` entries of a boolean vector, in order
(`np.nonzero(...)[0]`). -/
def trueIdxs : List Bool → List ℕ
  | [] => []
  | b :: bs => (if b then [0] else []) ++ (trueIdxs bs).map (· + 1)

/-- Embedding of `np.nonzero(...)[0][-1]`: the last index holding `true`, if any (the
`IndexError` of an empty index vector is represented by `none`). -/
def nonzeroLast (bs : List Bool) : Option ℕ :=
  (trueIdxs bs).getLast?

/-- The `eps = 1e-10` threshold of `_get_meaningful_history`. -/
def epsLog : ℚ := 1 / 10000000000

/-- The comparison `np.abs(1 - fids) < eps`: the fidelity entry is within `eps` of `1`. -/
def near1 (f : ℚ) : Bool := |1 - f| < epsLog

/-- The comparison `fids == 0`. -/
def isZeroEntry (f : ℚ) : Bool := f = 0

/-- The cut index computed by `Optimizer._get_meaningful_history`: the last
index where the thresholded-difference of the fidelity sequence is nonzero;
if the near-1 vector has no transition, the last transition of the
`fids == 0` vector; if that also has none, the full length. -/
def end_useful_log (fids : List ℚ) : ℕ :=
  match nonzeroLast (npDiffNe (fids.map near1)) with
  | some e => e
  | none =>
    match nonzeroLast (npDiffNe (fids.map isZeroEntry)) with
    | some e => e
    | none => fids.length

/-- Embedding of `Optimizer._get_meaningful_history`: truncate the fidelity log (and the
parameter history, when present) at the cut index. -/
def get_meaningful_history (fids : List ℚ) (params : Option (List (List ℚ))) :
    List ℚ × Option (List (List ℚ)) :=
  (fids.take (end_useful_log fids), params.map (fun ps => ps.take (end_useful_log fids)))

/-- The four shared variables manipulated by `_gradient_updates_adadelta`
(elementwise over the parameter vector). -/
structure AdadeltaState (k : ℕ) where
  params : Fin k → ℚ
  zgrads : Fin k → ℚ
  rgrads2 : Fin k → ℚ
  rparams2 : Fin k → ℚ

/-- Embedding of `_gradient_updates_adadelta` from `model.py`: one simultaneous update of
`(zgrads, rgrads2, rparams2, params)` given the gradient computed at this
call.  Every right-hand side is evaluated on the previous values of the
shared variables (theano applies all updates of one function call
simultaneously).  `rho = 0.95`, `eps = 1e-6`; the backend square root
`T.sqrt` is abstracted as the numeric kernel `sqrtFn`. -/
def adadeltaStep {k : ℕ} (sqrtFn : ℚ → ℚ) (st : AdadeltaState k)
    (grads : Fin k → ℚ) : AdadeltaState k :=
  { params := fun i => st.params i
      - (-sqrtFn (st.rparams2 i + 1 / 1000000) / sqrtFn (st.rgrads2 i + 1 / 1000000)
          * st.zgrads i)
    zgrads := grads
    rgrads2 := fun i => 95 / 100 * st.rgrads2 i + (1 - 95 / 100) * grads i ^ 2
    rparams2 := fun i => 95 / 100 * st.rparams2 i
      + (1 - 95 / 100)
          * (-sqrtFn (st.rparams2 i + 1 / 1000000) / sqrtFn (st.rgrads2 i + 1 / 1000000)
              * st.zgrads i) ^ 2 }

/-- The initialization `shared_from_var`: every accumulator starts at
`p.get_value() * 0`, i.e. the zero vector. -/
def adadeltaInit {k : ℕ} (p : Fin k → ℚ) : AdadeltaState k :=
  { params := p
    zgrads := fun _ => 0
    rgrads2 := fun _ => 0
    rparams2 := fun _ => 0 }

/-- A Python runtime value, as far as `Optimizer.run` is concerned. -/
inductive PyVal where
  | none
  | bool (b : Bool)
  | int (n : ℤ)
  | str (s : String)
  | dict (entries : List (String × PyVal))

/-- Python truthiness of the values above (a dict is truthy iff nonempty). -/
def PyVal.truthy : PyVal → Bool
  | .none => false
  | .bool b => b
  | .int n => n != 0
  | .str s => s != ("")
  | .dict es => !es.isEmpty

/-- The methods defined on `class Optimizer` in `model.py`.  There is no
`_save_results` among them (the save method is named `save_results` and
takes a file argument). -/
def optimizerMethods : List String :=
  ["__init__", "load", "_load_net", "_get_meaningful_history", "save_results",
   "_make_updates", "_update_fig", "refill_test_data", "refill_training_data",
   "train_epoch", "test_epoch", "_compile_model", "_run", "run",
   "plot_parameters_history"]

/-- What one call of `Optimizer.run` does, observably. -/
structure RunOutcome where
  historyRecorded : Bool
  raised : Option String
  resultsPersisted : Bool

/-- Embedding of `Optimizer.run` from `model.py`: `args = locals()` (a four-entry, hence
truthy, dict); `self._run(args)` — so `_run` receives `args` as its
`save_parameters` parameter and allocates/writes the parameter-history log
iff `bool(save_parameters)`; then, if `save_after is not None`,
`self._save_results()` — an attribute lookup on the class, raising
`AttributeError` when no such method exists. -/
def Optimizer_run (save_parameters len_shown_history save_after : PyVal) : RunOutcome :=
  let args : PyVal := .dict
    [("self", .str ("self")), ("save_parameters", save_parameters),
     ("len_shown_history", len_shown_history), ("save_after", save_after)]
  let historyRecorded := args.truthy
  match save_after with
  | PyVal.none =>
    { historyRecorded := historyRecorded, raised := Option.none, resultsPersisted := false }
  | _ =>
    if "_save_results" ∈ optimizerMethods then
      { historyRecorded := historyRecorded, raised := Option.none, resultsPersisted := true }
    else
      { historyRecorded := historyRecorded, raised := some ("AttributeError"),
        resultsPersisted := false }

lemma finCongr_loIdx {N : ℕ} (i : Fin N) :
    finCongr (two_mul N) (loIdx i) = Fin.castAdd N i :=
  Fin.ext rfl

lemma finCongr_hiIdx {N : ℕ} (i : Fin N) :
    finCongr (two_mul N) (hiIdx i) = Fin.natAdd N i :=
  Fin.ext rfl

/-- Summing over a big-real index set splits into the two halves. -/
lemma sum_split_halves {N : ℕ} (f : Fin (2 * N) → ℚ) :
    ∑ j, f j = (∑ i : Fin N, f (loIdx i)) + ∑ i : Fin N, f (hiIdx i) := by
  rw [← Equiv.sum_comp (finSumFinEquiv.trans (finCongr (two_mul N).symm)) f,
    Fintype.sum_sum_type]
  congr 1

/-- Summing over `Fin (S*A)` splits into blocks of size `A`. -/
lemma sum_split_blocks {S A : ℕ} (f : Fin (S * A) → ℚ) :
    ∑ j, f j = ∑ r : Fin S, ∑ k : Fin A, f (blkIdx r k) := by
  rw [← Equiv.sum_comp (finProdFinEquiv (m := S) (n := A)) f, Fintype.sum_prod_type]
  refine Finset.sum_congr rfl fun r _ => Finset.sum_congr rfl fun k _ => ?_
  congr 1
  apply Fin.ext
  show k.1 + A * r.1 = r.1 * A + k.1
  rw [Nat.mul_comm]
  omega

lemma concatHalves_lo {S : ℕ} (f g : Fin S → ℚ) (i : Fin S) :
    concatHalves f g (loIdx i) = f i := by
  simp only [concatHalves, finCongr_loIdx, Fin.addCases_left]

lemma concatHalves_hi {S : ℕ} (f g : Fin S → ℚ) (i : Fin S) :
    concatHalves f g (hiIdx i) = g i := by
  simp only [concatHalves, finCongr_hiIdx, Fin.addCases_right]

lemma bigDm_lo_lo {S : ℕ} (dmR dmI : Fin S → Fin S → ℚ) (i j : Fin S) :
    bigDm dmR dmI (loIdx i) (loIdx j) = dmI i j := by
  simp only [bigDm, finCongr_loIdx, Fin.addCases_left, concatHalves_lo]

lemma bigDm_lo_hi {S : ℕ} (dmR dmI : Fin S → Fin S → ℚ) (i j : Fin S) :
    bigDm dmR dmI (loIdx i) (hiIdx j) = dmR i j := by
  simp only [bigDm, finCongr_loIdx, Fin.addCases_left, concatHalves_hi]

lemma bigDm_hi_lo {S : ℕ} (dmR dmI : Fin S → Fin S → ℚ) (i j : Fin S) :
    bigDm dmR dmI (hiIdx i) (loIdx j) = -dmR i j := by
  simp only [bigDm, finCongr_hiIdx, Fin.addCases_right, concatHalves_lo]

lemma bigDm_hi_hi {S : ℕ} (dmR dmI : Fin S → Fin S → ℚ) (i j : Fin S) :
    bigDm dmR dmI (hiIdx i) (hiIdx j) = dmI i j := by
  simp only [bigDm, finCongr_hiIdx, Fin.addCases_right, concatHalves_hi]

lemma psiTilde_lo {S : ℕ} (target : Fin (2 * S) → ℚ) (j : Fin S) :
    psiTilde target (loIdx j) = -(split_bigreal_ket target).2 j := by
  simp only [psiTilde, concatHalves_lo]

lemma psiTilde_hi {S : ℕ} (target : Fin (2 * S) → ℚ) (j : Fin S) :
    psiTilde target (hiIdx j) = (split_bigreal_ket target).1 j := by
  simp only [psiTilde, concatHalves_hi]

/-- The bilinear form `psi_target . big_dm . psi_tilde` computed by
`_fidelity_with_ptrace` expands to the real part of the quadratic
expectation of the block-traced density matrix on the target state. -/
lemma fidelityPtraceCore_expand (S A : ℕ) (psi : Fin (2 * (S * A)) → ℚ)
    (target : Fin (2 * S) → ℚ) :
    fidelityPtraceCore S A psi target =
      reExpectation S (ptraceBlocks S A (ket_to_dm psi).1)
        (ptraceBlocks S A (ket_to_dm psi).2)
        (split_bigreal_ket target).1 (split_bigreal_ket target).2 := by
  set dmR := ptraceBlocks S A (ket_to_dm psi).1 with hR
  set dmI := ptraceBlocks S A (ket_to_dm psi).2 with hI
  have key : ∀ i : Fin S,
      ((∑ v, target (loIdx i) * bigDm dmR dmI (loIdx i) v * psiTilde target v)
        + ∑ v, target (hiIdx i) * bigDm dmR dmI (hiIdx i) v * psiTilde target v)
      = ∑ j : Fin S,
          (target (loIdx i) * dmR i j * target (loIdx j)
            + target (hiIdx i) * dmR i j * target (hiIdx j)
            + target (hiIdx i) * dmI i j * target (loIdx j)
            - target (loIdx i) * dmI i j * target (hiIdx j)) := by
    intro i
    rw [sum_split_halves (fun v => target (loIdx i) * bigDm dmR dmI (loIdx i) v * psiTilde target v),
      sum_split_halves (fun v => target (hiIdx i) * bigDm dmR dmI (hiIdx i) v * psiTilde target v)]
    simp only [bigDm_lo_lo, bigDm_lo_hi, bigDm_hi_lo, bigDm_hi_hi, psiTilde_lo, psiTilde_hi]
    rw [← Finset.sum_add_distrib, ← Finset.sum_add_distrib, ← Finset.sum_add_distrib]
    exact Finset.sum_congr rfl fun j _ => by simp only [split_bigreal_ket]; ring
  show (∑ u, ∑ v, target u * bigDm dmR dmI u v * psiTilde target v) = _
  rw [sum_split_halves (fun u => ∑ v, target u * bigDm dmR dmI u v * psiTilde target v),
    ← Finset.sum_add_distrib]
  unfold reExpectation
  exact Finset.sum_congr rfl fun i _ => key i

/-- C1: for every evolved full-system ket in big-real form (length
`2*2^n = 2*(2^m * 2^num_ancillae)`) and every normalized system-only target
ket in big-real form (length `2*2^m`, at least one ancilla), the per-sample
fidelity computed by `_fidelity_with_ptrace` equals
`Re(<target|rho_reduced|target>)`, where `rho_reduced` is obtained by
forming `dm_real`/`dm_imag` via `_ket_to_dm` and replacing each
`2^(n-m) x 2^(n-m)` block by its trace; the big-real bilinear form
`psi_target . big_dm . psi_tilde` built by the code realizes exactly this
real part. -/
theorem fidelity_with_ptrace_eq_re_expectation (m num_ancillae : ℕ)
    (hanc : 1 ≤ num_ancillae)
    (psi : Fin (2 * (2 ^ m * 2 ^ num_ancillae)) → ℚ)
    (target : Fin (2 * 2 ^ m) → ℚ)
    (hnorm : ∑ j, target j ^ 2 = 1) :
    fidelity_with_ptrace num_ancillae (2 ^ m) psi target =
      reExpectation (2 ^ m)
        (ptraceBlocks (2 ^ m) (2 ^ num_ancillae) (ket_to_dm psi).1)
        (ptraceBlocks (2 ^ m) (2 ^ num_ancillae) (ket_to_dm psi).2)
        (split_bigreal_ket target).1 (split_bigreal_ket target).2 :=
  fidelityPtraceCore_expand (2 ^ m) (2 ^ num_ancillae) psi target

/-- Witness for C1 at a concrete input with one ancilla. -/
theorem fidelity_with_ptrace_eq_re_expectation_witness :
    ((1 : ℕ) ≤ 1 ∧ ∑ j, targetC1 j ^ 2 = 1) ∧
      fidelity_with_ptrace 1 (2 ^ 0) psiC1 targetC1 =
        reExpectation (2 ^ 0)
          (ptraceBlocks (2 ^ 0) (2 ^ 1) (ket_to_dm psiC1).1)
          (ptraceBlocks (2 ^ 0) (2 ^ 1) (ket_to_dm psiC1).2)
          (split_bigreal_ket targetC1).1 (split_bigreal_ket targetC1).2 :=
  ⟨⟨le_refl 1, by simp [targetC1, Fin.sum_univ_two]⟩,
    fidelity_with_ptrace_eq_re_expectation 0 1 (le_refl 1) psiC1 targetC1
      (by simp [targetC1, Fin.sum_univ_two])⟩

/-- The partial-trace fidelity is the sum over ancilla basis labels of the
squared moduli of the overlaps with the corresponding state slices. -/
lemma fidelityPtraceCore_eq_sum_sq (S A : ℕ) (psi : Fin (2 * (S * A)) → ℚ)
    (target : Fin (2 * S) → ℚ) :
    fidelityPtraceCore S A psi target
      = ∑ k : Fin A,
          (overlapRe S A psi target k ^ 2 + overlapIm S A psi target k ^ 2) := by
  rw [fidelityPtraceCore_expand]
  unfold reExpectation overlapRe overlapIm
  have step1 : ∀ i j : Fin S,
      ((split_bigreal_ket target).1 i * ptraceBlocks S A (ket_to_dm psi).1 i j
            * (split_bigreal_ket target).1 j
        + (split_bigreal_ket target).2 i * ptraceBlocks S A (ket_to_dm psi).1 i j
            * (split_bigreal_ket target).2 j
        + (split_bigreal_ket target).2 i * ptraceBlocks S A (ket_to_dm psi).2 i j
            * (split_bigreal_ket target).1 j
        - (split_bigreal_ket target).1 i * ptraceBlocks S A (ket_to_dm psi).2 i j
            * (split_bigreal_ket target).2 j)
      = ∑ k : Fin A,
          ((target (loIdx i) * psi (loIdx (blkIdx i k))
              + target (hiIdx i) * psi (hiIdx (blkIdx i k)))
            * (target (loIdx j) * psi (loIdx (blkIdx j k))
              + target (hiIdx j) * psi (hiIdx (blkIdx j k)))
           + (target (loIdx i) * psi (hiIdx (blkIdx i k))
              - target (hiIdx i) * psi (loIdx (blkIdx i k)))
            * (target (loIdx j) * psi (hiIdx (blkIdx j k))
              - target (hiIdx j) * psi (loIdx (blkIdx j k)))) := by
    intro i j
    simp only [ptraceBlocks, ket_to_dm, split_bigreal_ket]
    simp only [Finset.mul_sum, Finset.sum_mul]
    rw [← Finset.sum_add_distrib, ← Finset.sum_add_distrib, ← Finset.sum_sub_distrib]
    exact Finset.sum_congr rfl fun k _ => by ring
  calc (∑ i, ∑ j,
          ((split_bigreal_ket target).1 i * ptraceBlocks S A (ket_to_dm psi).1 i j
              * (split_bigreal_ket target).1 j
            + (split_bigreal_ket target).2 i * ptraceBlocks S A (ket_to_dm psi).1 i j
              * (split_bigreal_ket target).2 j
            + (split_bigreal_ket target).2 i * ptraceBlocks S A (ket_to_dm psi).2 i j
              * (split_bigreal_ket target).1 j
            - (split_bigreal_ket target).1 i * ptraceBlocks S A (ket_to_dm psi).2 i j
              * (split_bigreal_ket target).2 j))
      = ∑ i, ∑ j, ∑ k : Fin A,
          ((target (loIdx i) * psi (loIdx (blkIdx i k))
              + target (hiIdx i) * psi (hiIdx (blkIdx i k)))
            * (target (loIdx j) * psi (loIdx (blkIdx j k))
              + target (hiIdx j) * psi (hiIdx (blkIdx j k)))
           + (target (loIdx i) * psi (hiIdx (blkIdx i k))
              - target (hiIdx i) * psi (loIdx (blkIdx i k)))
            * (target (loIdx j) * psi (hiIdx (blkIdx j k))
              - target (hiIdx j) * psi (loIdx (blkIdx j k)))) :=
        Finset.sum_congr rfl fun i _ => Finset.sum_congr rfl fun j _ => step1 i j
    _ = ∑ i, ∑ k : Fin A, ∑ j,
          ((target (loIdx i) * psi (loIdx (blkIdx i k))
              + target (hiIdx i) * psi (hiIdx (blkIdx i k)))
            * (target (loIdx j) * psi (loIdx (blkIdx j k))
              + target (hiIdx j) * psi (hiIdx (blkIdx j k)))
           + (target (loIdx i) * psi (hiIdx (blkIdx i k))
              - target (hiIdx i) * psi (loIdx (blkIdx i k)))
            * (target (loIdx j) * psi (hiIdx (blkIdx j k))
              - target (hiIdx j) * psi (loIdx (blkIdx j k)))) :=
        Finset.sum_congr rfl fun i _ => Finset.sum_comm
    _ = ∑ k : Fin A, ∑ i, ∑ j,
          ((target (loIdx i) * psi (loIdx (blkIdx i k))
              + target (hiIdx i) * psi (hiIdx (blkIdx i k)))
            * (target (loIdx j) * psi (loIdx (blkIdx j k))
              + target (hiIdx j) * psi (hiIdx (blkIdx j k)))
           + (target (loIdx i) * psi (hiIdx (blkIdx i k))
              - target (hiIdx i) * psi (loIdx (blkIdx i k)))
            * (target (loIdx j) * psi (hiIdx (blkIdx j k))
              - target (hiIdx j) * psi (loIdx (blkIdx j k)))) := Finset.sum_comm
    _ = ∑ k : Fin A,
          ((∑ r, (target (loIdx r) * psi (loIdx (blkIdx r k))
              + target (hiIdx r) * psi (hiIdx (blkIdx r k)))) ^ 2
            + (∑ r, (target (loIdx r) * psi (hiIdx (blkIdx r k))
              - target (hiIdx r) * psi (loIdx (blkIdx r k)))) ^ 2) := by
        refine Finset.sum_congr rfl fun k _ => ?_
        rw [pow_two, pow_two, Finset.sum_mul_sum, Finset.sum_mul_sum,
          ← Finset.sum_add_distrib]
        exact Finset.sum_congr rfl fun i _ => Finset.sum_add_distrib

/-- The partial-trace fidelity is nonnegative (it is a sum of squares). -/
lemma fidelityPtraceCore_nonneg (S A : ℕ) (psi : Fin (2 * (S * A)) → ℚ)
    (target : Fin (2 * S) → ℚ) : 0 ≤ fidelityPtraceCore S A psi target := by
  rw [fidelityPtraceCore_eq_sum_sq]
  exact Finset.sum_nonneg fun k _ => add_nonneg (sq_nonneg _) (sq_nonneg _)

/-- Bessel-type bound: for normalized evolved state and normalized target,
the partial-trace fidelity is at most `1`. -/
lemma fidelityPtraceCore_le_one (S A : ℕ) (psi : Fin (2 * (S * A)) → ℚ)
    (target : Fin (2 * S) → ℚ)
    (hpsi : ∑ j, psi j ^ 2 = 1) (ht : ∑ j, target j ^ 2 = 1) :
    fidelityPtraceCore S A psi target ≤ 1 := by
  rw [fidelityPtraceCore_eq_sum_sq]
  have hQ : ∑ r : Fin S, (target (loIdx r) ^ 2 + target (hiIdx r) ^ 2) = 1 := by
    rw [sum_split_halves (fun j => target j ^ 2)] at ht
    rw [Finset.sum_add_distrib]
    exact ht
  have hP : ∑ k : Fin A, ∑ r : Fin S,
      (psi (loIdx (blkIdx r k)) ^ 2 + psi (hiIdx (blkIdx r k)) ^ 2) = 1 := by
    rw [sum_split_halves (fun j => psi j ^ 2),
      sum_split_blocks (fun j => psi (loIdx j) ^ 2),
      sum_split_blocks (fun j => psi (hiIdx j) ^ 2)] at hpsi
    calc ∑ k : Fin A, ∑ r : Fin S,
          (psi (loIdx (blkIdx r k)) ^ 2 + psi (hiIdx (blkIdx r k)) ^ 2)
        = ∑ k : Fin A, ((∑ r : Fin S, psi (loIdx (blkIdx r k)) ^ 2)
            + ∑ r : Fin S, psi (hiIdx (blkIdx r k)) ^ 2) :=
          Finset.sum_congr rfl fun k _ => Finset.sum_add_distrib
      _ = (∑ k : Fin A, ∑ r : Fin S, psi (loIdx (blkIdx r k)) ^ 2)
            + ∑ k : Fin A, ∑ r : Fin S, psi (hiIdx (blkIdx r k)) ^ 2 :=
          Finset.sum_add_distrib
      _ = (∑ r : Fin S, ∑ k : Fin A, psi (loIdx (blkIdx r k)) ^ 2)
            + ∑ r : Fin S, ∑ k : Fin A, psi (hiIdx (blkIdx r k)) ^ 2 := by
          rw [Finset.sum_comm (f := fun k r => psi (loIdx (blkIdx r k)) ^ 2),
            Finset.sum_comm (f := fun k r => psi (hiIdx (blkIdx r k)) ^ 2)]
      _ = 1 := hpsi
  have hcre : ∀ k : Fin A,
      (∑ r, (target (loIdx r) * psi (loIdx (blkIdx r k))
        + target (hiIdx r) * psi (hiIdx (blkIdx r k)))) = overlapRe S A psi target k :=
    fun k => rfl
  have hcim : ∀ k : Fin A,
      (∑ r, (target (loIdx r) * psi (hiIdx (blkIdx r k))
        - target (hiIdx r) * psi (loIdx (blkIdx r k)))) = overlapIm S A psi target k :=
    fun k => rfl
  have per_k : ∀ k : Fin A,
      (∑ r : Fin S,
        ((psi (loIdx (blkIdx r k))
            - (overlapRe S A psi target k * target (loIdx r)
              - overlapIm S A psi target k * target (hiIdx r))) ^ 2
          + (psi (hiIdx (blkIdx r k))
            - (overlapRe S A psi target k * target (hiIdx r)
              + overlapIm S A psi target k * target (loIdx r))) ^ 2))
      = (∑ r : Fin S, (psi (loIdx (blkIdx r k)) ^ 2 + psi (hiIdx (blkIdx r k)) ^ 2))
          - (overlapRe S A psi target k ^ 2 + overlapIm S A psi target k ^ 2) := by
    intro k
    have expand : ∀ r : Fin S,
        ((psi (loIdx (blkIdx r k))
            - (overlapRe S A psi target k * target (loIdx r)
              - overlapIm S A psi target k * target (hiIdx r))) ^ 2
          + (psi (hiIdx (blkIdx r k))
            - (overlapRe S A psi target k * target (hiIdx r)
              + overlapIm S A psi target k * target (loIdx r))) ^ 2)
        = (psi (loIdx (blkIdx r k)) ^ 2 + psi (hiIdx (blkIdx r k)) ^ 2)
          + (overlapRe S A psi target k ^ 2 + overlapIm S A psi target k ^ 2)
              * (target (loIdx r) ^ 2 + target (hiIdx r) ^ 2)
          - 2 * overlapRe S A psi target k
              * (target (loIdx r) * psi (loIdx (blkIdx r k))
                + target (hiIdx r) * psi (hiIdx (blkIdx r k)))
          - 2 * overlapIm S A psi target k
              * (target (loIdx r) * psi (hiIdx (blkIdx r k))
                - target (hiIdx r) * psi (loIdx (blkIdx r k))) := fun r => by ring
    rw [Finset.sum_congr rfl fun r _ => expand r]
    rw [Finset.sum_sub_distrib, Finset.sum_sub_distrib, Finset.sum_add_distrib,
      ← Finset.mul_sum, ← Finset.mul_sum, ← Finset.mul_sum, hQ, hcre k, hcim k]
    ring
  have hE : (0 : ℚ) ≤ ∑ k : Fin A, ∑ r : Fin S,
      ((psi (loIdx (blkIdx r k))
          - (overlapRe S A psi target k * target (loIdx r)
            - overlapIm S A psi target k * target (hiIdx r))) ^ 2
        + (psi (hiIdx (blkIdx r k))
          - (overlapRe S A psi target k * target (hiIdx r)
            + overlapIm S A psi target k * target (loIdx r))) ^ 2) :=
    Finset.sum_nonneg fun k _ => Finset.sum_nonneg fun r _ =>
      add_nonneg (sq_nonneg _) (sq_nonneg _)
  have hEeq : (∑ k : Fin A, ∑ r : Fin S,
      ((psi (loIdx (blkIdx r k))
          - (overlapRe S A psi target k * target (loIdx r)
            - overlapIm S A psi target k * target (hiIdx r))) ^ 2
        + (psi (hiIdx (blkIdx r k))
          - (overlapRe S A psi target k * target (hiIdx r)
            + overlapIm S A psi target k * target (loIdx r))) ^ 2))
      = 1 - ∑ k : Fin A, (overlapRe S A psi target k ^ 2 + overlapIm S A psi target k ^ 2) := by
    rw [Finset.sum_congr rfl fun k _ => per_k k, Finset.sum_sub_distrib, hP]
  rw [hEeq] at hE
  linarith

/-- The no-partial-trace fidelity equals the squared modulus of the
complex inner product `<target|psi>`. -/
lemma fidelity_no_ptrace_eq_abs_sq {S : ℕ} (state target : Fin (2 * S) → ℚ) :
    fidelity_no_ptrace state target
      = innerRe target state ^ 2 + innerIm target state ^ 2 := by
  have hRe : innerRe target state
      = (∑ i, (split_bigreal_ket state).1 i * (split_bigreal_ket target).1 i)
        + ∑ i, (split_bigreal_ket state).2 i * (split_bigreal_ket target).2 i := by
    unfold innerRe
    rw [Finset.sum_add_distrib]
    congr 1 <;> exact Finset.sum_congr rfl fun i _ => mul_comm _ _
  have hIm : innerIm target state
      = (∑ i, (split_bigreal_ket state).2 i * (split_bigreal_ket target).1 i)
        - ∑ i, (split_bigreal_ket state).1 i * (split_bigreal_ket target).2 i := by
    unfold innerIm
    rw [Finset.sum_sub_distrib]
    have h1 : (∑ i, (split_bigreal_ket target).1 i * (split_bigreal_ket state).2 i)
        = ∑ i, (split_bigreal_ket state).2 i * (split_bigreal_ket target).1 i :=
      Finset.sum_congr rfl fun i _ => mul_comm _ _
    have h2 : (∑ i, (split_bigreal_ket target).2 i * (split_bigreal_ket state).1 i)
        = ∑ i, (split_bigreal_ket state).1 i * (split_bigreal_ket target).2 i :=
      Finset.sum_congr rfl fun i _ => mul_comm _ _
    rw [h1, h2]
  rw [hRe, hIm]
  unfold fidelity_no_ptrace
  ring

lemma padCast_lo {S : ℕ} (state : Fin (2 * S) → ℚ) (r : Fin S) :
    padCast S state (loIdx (blkIdx r (0 : Fin 1))) = state (loIdx r) := by
  unfold padCast
  exact congrArg state (Fin.ext (by simp [loIdx, blkIdx]))

lemma padCast_hi {S : ℕ} (state : Fin (2 * S) → ℚ) (r : Fin S) :
    padCast S state (hiIdx (blkIdx r (0 : Fin 1))) = state (hiIdx r) := by
  unfold padCast
  exact congrArg state (Fin.ext (by simp [hiIdx, blkIdx]))

lemma overlapRe_one {S : ℕ} (state target : Fin (2 * S) → ℚ) :
    overlapRe S 1 (padCast S state) target 0 = innerRe target state := by
  unfold overlapRe innerRe
  refine Finset.sum_congr rfl fun r _ => ?_
  rw [padCast_lo, padCast_hi]
  rfl

lemma overlapIm_one {S : ℕ} (state target : Fin (2 * S) → ℚ) :
    overlapIm S 1 (padCast S state) target 0 = innerIm target state := by
  unfold overlapIm innerIm
  refine Finset.sum_congr rfl fun r _ => ?_
  rw [padCast_lo, padCast_hi]
  rfl

/-- The no-ancilla fast path agrees exactly with the general partial-trace
path evaluated with trivial (size-1) ancilla blocks. -/
lemma fidelity_no_ptrace_eq_core {S : ℕ} (state target : Fin (2 * S) → ℚ) :
    fidelity_no_ptrace state target
      = fidelityPtraceCore S 1 (padCast S state) target := by
  rw [fidelityPtraceCore_eq_sum_sq, Fin.sum_univ_one, overlapRe_one, overlapIm_one,
    fidelity_no_ptrace_eq_abs_sq]

/-- C2: for every pair of same-length big-real kets, the fidelity computed
by `_fidelity_no_ptrace` equals `|<target|psi>|^2` computed as
`(Re.Re + Im.Im)^2 + (Re.Im - Im.Re)^2` on the big-real halves, and for
normalized inputs it equals the value the general partial-trace path
(`_fidelity_with_ptrace` with `num_ancillae = 0`, i.e. `2^0 = 1`-sized
blocks) would produce — an exact algebraic identity. -/
theorem fidelity_no_ptrace_correct (S : ℕ) (state target : Fin (2 * S) → ℚ)
    (hstate : ∑ j, state j ^ 2 = 1) (htarget : ∑ j, target j ^ 2 = 1) :
    fidelity_no_ptrace state target
        = innerRe target state ^ 2 + innerIm target state ^ 2
      ∧ fidelity_no_ptrace state target
        = fidelity_with_ptrace 0 S (padCast S state) target :=
  ⟨fidelity_no_ptrace_eq_abs_sq state target, fidelity_no_ptrace_eq_core state target⟩

/-- Witness for C2 at a concrete pair of normalized one-qubit states. -/
theorem fidelity_no_ptrace_correct_witness :
    ((∑ j, stateC2 j ^ 2 = 1) ∧ ∑ j, targetC2 j ^ 2 = 1) ∧
      (fidelity_no_ptrace stateC2 targetC2
          = innerRe targetC2 stateC2 ^ 2 + innerIm targetC2 stateC2 ^ 2
        ∧ fidelity_no_ptrace stateC2 targetC2
          = fidelity_with_ptrace 0 1 (padCast 1 stateC2) targetC2) :=
  ⟨⟨by simp [stateC2, Fin.sum_univ_two], by simp [targetC2, Fin.sum_univ_two]⟩,
    fidelity_no_ptrace_correct 1 stateC2 targetC2
      (by simp [stateC2, Fin.sum_univ_two]) (by simp [targetC2, Fin.sum_univ_two])⟩

/-- C6: for every normalized big-real evolved state and normalized big-real
target of compatible dimensions, the per-sample fidelity computed by the
evaluator lies in `[0, 1]`, on both the partial-trace path and the
no-ancilla path. -/
theorem fidelity_bounds :
    (∀ (num_ancillae S : ℕ) (psi : Fin (2 * (S * 2 ^ num_ancillae)) → ℚ)
        (target : Fin (2 * S) → ℚ),
        (∑ j, psi j ^ 2 = 1) → (∑ j, target j ^ 2 = 1) →
        0 ≤ fidelity_with_ptrace num_ancillae S psi target
          ∧ fidelity_with_ptrace num_ancillae S psi target ≤ 1)
    ∧ ∀ (S : ℕ) (state target : Fin (2 * S) → ℚ),
        (∑ j, state j ^ 2 = 1) → (∑ j, target j ^ 2 = 1) →
        0 ≤ fidelity_no_ptrace state target ∧ fidelity_no_ptrace state target ≤ 1 := by
  constructor
  · intro num_ancillae S psi target hpsi ht
    exact ⟨fidelityPtraceCore_nonneg S (2 ^ num_ancillae) psi target,
      fidelityPtraceCore_le_one S (2 ^ num_ancillae) psi target hpsi ht⟩
  · intro S state target hstate ht
    constructor
    · unfold fidelity_no_ptrace
      positivity
    · rw [fidelity_no_ptrace_eq_core]
      refine fidelityPtraceCore_le_one S 1 (padCast S state) target ?_ ht
      have hcast : ∑ j, padCast S state j ^ 2 = ∑ j, state j ^ 2 :=
        Equiv.sum_comp (finCongr (by ring : 2 * (S * 1) = 2 * S)) (fun j => state j ^ 2)
      rw [hcast]
      exact hstate

/-- Witness for C6: both bounds hold at concrete normalized inputs on both
code paths. -/
theorem fidelity_bounds_witness :
    ((∑ j, psiC6 j ^ 2 = 1) ∧ (∑ j, targetC6 j ^ 2 = 1) ∧ ∑ j, stateC6 j ^ 2 = 1) ∧
      (0 ≤ fidelity_with_ptrace 1 2 psiC6 targetC6
        ∧ fidelity_with_ptrace 1 2 psiC6 targetC6 ≤ 1)
      ∧ 0 ≤ fidelity_no_ptrace stateC6 stateC6 ∧ fidelity_no_ptrace stateC6 stateC6 ≤ 1 :=
  ⟨⟨by simp [psiC6, Fin.sum_univ_succ], by simp [targetC6, Fin.sum_univ_succ],
      by simp [stateC6, Fin.sum_univ_two]⟩,
    fidelity_bounds.1 1 2 psiC6 targetC6
      (by simp [psiC6, Fin.sum_univ_succ]) (by simp [targetC6, Fin.sum_univ_succ]),
    fidelity_bounds.2 1 stateC6 stateC6
      (by simp [stateC6, Fin.sum_univ_two]) (by simp [stateC6, Fin.sum_univ_two])⟩

lemma sigmas_chars2pair (ax : Axis) : sigmas (chars2pairAxis ax) = pauliOfAxis ax := by
  cases ax <;> rfl

lemma interactionTerm_selfint (n : ℕ) (q : Fin n) (ax : Axis) :
    interactionTerm n (.selfint q ax) = substitutedOne n q ax := by
  funext k
  by_cases h : k = q
  · subst h
    simp [interactionTerm, substitutedOne, sigmas_chars2pair]
  · simp [interactionTerm, substitutedOne, Function.update_apply, h]

lemma interactionTerm_pairint (n : ℕ) (q1 q2 : Fin n) (ax1 ax2 : Axis)
    (hne : q1 ≠ q2) :
    interactionTerm n (.pairint q1 q2 ax1 ax2) = substitutedTwo n q1 q2 ax1 ax2 := by
  funext k
  by_cases h2 : k = q2
  · subst h2
    have h1 : k ≠ q1 := fun h => hne (h.symm)
    simp [interactionTerm, substitutedTwo, h1, sigmas_chars2pair]
  · by_cases h1 : k = q1
    · subst h1
      simp [interactionTerm, substitutedTwo, Function.update_apply, h2,
        sigmas_chars2pair]
    · simp [interactionTerm, substitutedTwo, Function.update_apply, h1, h2]

/-- C4: for every interaction term and every `num_qubits`, the basis matrix
built by `build_H_factor` equals the big-real form (block rule
`[[A, -B], [B, A]]`, modelled from the spec) of `-i` times the
`num_qubits`-fold Kronecker product of `2x2` identities with the Pauli
matrix(es) substituted at the interacting position(s). -/
theorem build_H_factor_correct (n : ℕ) :
    (∀ (q : Fin n) (ax : Axis),
        build_H_factor n (.selfint q ax)
          = complex2bigreal (fun r c => -gi * kronN n (substitutedOne n q ax) r c))
    ∧ ∀ (q1 q2 : Fin n) (ax1 ax2 : Axis), q1 ≠ q2 →
        build_H_factor n (.pairint q1 q2 ax1 ax2)
          = complex2bigreal
              (fun r c => -gi * kronN n (substitutedTwo n q1 q2 ax1 ax2) r c) := by
  constructor
  · intro q ax
    unfold build_H_factor
    rw [interactionTerm_selfint]
  · intro q1 q2 ax1 ax2 hne
    unfold build_H_factor
    rw [interactionTerm_pairint n q1 q2 ax1 ax2 hne]

/-- Witness for C4 at a concrete two-qubit `XY` pairwise interaction. -/
theorem build_H_factor_correct_witness :
    ((0 : Fin 2) ≠ 1) ∧
      build_H_factor 2 (.pairint 0 1 .x .y)
        = complex2bigreal (fun r c => -gi * kronN 2 (substitutedTwo 2 0 1 .x .y) r c) :=
  ⟨by decide, (build_H_factor_correct 2).2 0 1 .x .y (by decide)⟩

/-- C3: for every parameter vector `J`, the symbolic (differentiable)
evaluation mode of the Hamiltonian assembler and its numeric evaluation
mode produce identical results, both equal to the tensor contraction
`Σᵢ J[i] * basis[i]`; this holds on both the plain-interaction-list branch
and the topology branch of `build_H_factors`. -/
theorem build_H_factors_modes_agree (n : ℕ) :
    (∀ (ints : List (Interaction n)) (J : Fin ints.length → ℚ),
        build_H_factors_symbolic n ints J = build_H_factors_numeric n ints J
        ∧ build_H_factors_numeric n ints J = ∑ i, J i • hFactors n ints i)
    ∧ ∀ (topo : List (Interaction n × String))
        (J : Fin (topologySymbols n topo).length → ℚ),
        build_H_factors_topology_symbolic n topo J
            = build_H_factors_topology_numeric n topo J
        ∧ build_H_factors_topology_numeric n topo J
            = ∑ i, J i • topologyFactor n topo ((topologySymbols n topo).get i) := by
  constructor
  · intro ints J
    refine ⟨rfl, ?_⟩
    funext u v
    rw [Finset.sum_apply, Finset.sum_apply]
    exact Finset.sum_congr rfl fun i _ => rfl
  · intro topo J
    refine ⟨rfl, ?_⟩
    funext u v
    rw [Finset.sum_apply, Finset.sum_apply]
    exact Finset.sum_congr rfl fun i _ => rfl

lemma num_interactions_topology_eq (n : ℕ) (topo : List (Interaction n × String)) :
    num_interactions_topology n topo = (topologySymbols n topo).length := by
  unfold num_interactions_topology topologySymbols
  rw [Finset.length_sort, List.card_toFinset]

lemma topologySymbols_perm_invariant (n : ℕ)
    (topo1 topo2 : List (Interaction n × String)) (hperm : topo1.Perm topo2) :
    topologySymbols n topo1 = topologySymbols n topo2
      ∧ ∀ s, topologyFactor n topo1 s = topologyFactor n topo2 s := by
  constructor
  · unfold topologySymbols
    rw [List.toFinset_eq_of_perm _ _ (hperm.map Prod.snd)]
  · intro s
    unfold topologyFactor
    have h1 : (topo1.filter (labelEq s)).Perm (topo2.filter (labelEq s)) :=
      hperm.filter (labelEq s)
    have h2 := h1.map (fun p => build_H_factor n p.1)
    exact h2.sum_eq

lemma topologyFactor_get (n : ℕ) (topo : List (Interaction n × String))
    (i : Fin (topologySymbols n topo).length) :
    topologyFactor n topo ((topologySymbols n topo).get i)
      = ((topo.filter (labelEq ((topologySymbols n topo).get i))).map
          (fun p => build_H_factor n p.1)).sum := rfl

lemma build_H_factors_topology_perturb (n : ℕ)
    (topo : List (Interaction n × String))
    (J : Fin (topologySymbols n topo).length → ℚ)
    (idx : Fin (topologySymbols n topo).length) (d : ℚ) :
    build_H_factors_topology_numeric n topo (Function.update J idx (J idx + d))
      = fun u v => build_H_factors_topology_numeric n topo J u v
          + d * topologyFactor n topo ((topologySymbols n topo).get idx) u v := by
  funext u v
  unfold build_H_factors_topology_numeric
  have hterm : ∀ i : Fin (topologySymbols n topo).length,
      Function.update J idx (J idx + d) i
          * topologyFactor n topo ((topologySymbols n topo).get i) u v
        = J i * topologyFactor n topo ((topologySymbols n topo).get i) u v
          + (if i = idx
              then d * topologyFactor n topo ((topologySymbols n topo).get idx) u v
              else 0) := by
    intro i
    by_cases h : i = idx
    · subst h
      rw [Function.update_same, if_pos rfl]
      ring
    · rw [Function.update_noteq h, if_neg h]
      ring
  rw [Finset.sum_congr rfl fun i _ => hterm i, Finset.sum_add_distrib,
    Finset.sum_ite_eq' Finset.univ idx
      (fun _ => d * topologyFactor n topo ((topologySymbols n topo).get idx) u v),
    if_pos (Finset.mem_univ idx)]

/-- C5: for every symbolic topology, the number of trainable parameters
equals the number of distinct symbols; the symbol ordering is deterministic
(depends only on the set of entries, so it is stable across reloads); the
basis matrix of the `i`-th parameter is the sum of the basis matrices of
all terms mapped to the `i`-th sorted symbol; and perturbing one parameter
changes the Hamiltonian by that parameter step times the aggregated basis
matrix, i.e. it changes the contribution of all aggregated terms
identically. -/
theorem parse_interactions_topology_correct (n : ℕ) :
    (∀ topo : List (Interaction n × String),
        num_interactions_topology n topo = (topologySymbols n topo).length)
    ∧ (∀ topo1 topo2 : List (Interaction n × String), topo1.Perm topo2 →
        topologySymbols n topo1 = topologySymbols n topo2
          ∧ ∀ s, topologyFactor n topo1 s = topologyFactor n topo2 s)
    ∧ (∀ (topo : List (Interaction n × String))
        (i : Fin (topologySymbols n topo).length),
        topologyFactor n topo ((topologySymbols n topo).get i)
          = ((topo.filter (labelEq ((topologySymbols n topo).get i))).map
              (fun p => build_H_factor n p.1)).sum)
    ∧ ∀ (topo : List (Interaction n × String))
        (J : Fin (topologySymbols n topo).length → ℚ)
        (idx : Fin (topologySymbols n topo).length) (d : ℚ),
        build_H_factors_topology_numeric n topo (Function.update J idx (J idx + d))
          = fun u v => build_H_factors_topology_numeric n topo J u v
              + d * topologyFactor n topo ((topologySymbols n topo).get idx) u v :=
  ⟨num_interactions_topology_eq n, topologySymbols_perm_invariant n,
    topologyFactor_get n, build_H_factors_topology_perturb n⟩

/-- Witness for C5: the reload-determinism part applied to a concrete
reordered topology. -/
theorem parse_interactions_topology_correct_witness :
    topoW1.Perm topoW2 ∧
      (topologySymbols 1 topoW1 = topologySymbols 1 topoW2
        ∧ ∀ s, topologyFactor 1 topoW1 s = topologyFactor 1 topoW2 s) :=
  ⟨by decide, (parse_interactions_topology_correct 1).2.1 topoW1 topoW2 (by decide)⟩

lemma optimizerLoop_no_stop {σ : Type} (train : σ → σ) (measure : σ → ℚ)
    (updateLr : ℕ → σ → σ) :
    ∀ (n e : ℕ) (s : σ),
      (∀ i < n, measure (train (stFrom train updateLr e s i)) ≠ 1) →
      optimizerLoop train measure updateLr n e s
        = (stFrom train updateLr e s n,
           List.ofFn (fun i : Fin n => measure (train (stFrom train updateLr e s i)))) := by
  intro n
  induction n with
  | zero =>
    intro e s _
    rfl
  | succ n ih =>
    intro e s h
    have h0 : measure (train s) ≠ 1 := h 0 (Nat.succ_pos n)
    show optimizerLoop train measure updateLr (n + 1) e s = _
    rw [optimizerLoop]
    simp only [if_neg h0]
    rw [ih (e + 1) (updateLr e (train s)) (fun i hi => h (i + 1) (Nat.succ_lt_succ hi))]
    rw [List.ofFn_succ]
    rfl

lemma optimizerLoop_early_stop {σ : Type} (train : σ → σ) (measure : σ → ℚ)
    (updateLr : ℕ → σ → σ) :
    ∀ (z n e : ℕ) (s : σ), z < n →
      (∀ i < z, measure (train (stFrom train updateLr e s i)) ≠ 1) →
      measure (train (stFrom train updateLr e s z)) = 1 →
      optimizerLoop train measure updateLr n e s
        = (train (stFrom train updateLr e s z),
           List.ofFn (fun i : Fin (z + 1) =>
             measure (train (stFrom train updateLr e s i)))) := by
  intro z
  induction z with
  | zero =>
    intro n e s hn _ hstop
    cases n with
    | zero => omega
    | succ n' =>
      show optimizerLoop train measure updateLr (n' + 1) e s = _
      rw [optimizerLoop]
      simp only [if_pos (show measure (train s) = 1 from hstop)]
      rw [List.ofFn_succ]
      rfl
  | succ z ih =>
    intro n e s hn h hstop
    cases n with
    | zero => omega
    | succ n' =>
      have h0 : measure (train s) ≠ 1 := h 0 (Nat.succ_pos z)
      show optimizerLoop train measure updateLr (n' + 1) e s = _
      rw [optimizerLoop]
      simp only [if_neg h0]
      rw [ih n' (e + 1) (updateLr e (train s)) (Nat.lt_of_succ_lt_succ hn)
        (fun i hi => h (i + 1) (Nat.succ_lt_succ hi)) hstop]
      refine Prod.ext rfl ?_
      conv_rhs => rw [List.ofFn_succ]
      rfl

/-- C7: during a run, if the fidelity recorded for some epoch `z` equals
`1` (and no earlier epoch reached it), the loop stops immediately after
that epoch: the final state is the state right after training epoch `z`
(no further epochs execute) and the log holds exactly the `z + 1` recorded
fidelities.  Otherwise the loop runs for exactly the configured number of
epochs and the log holds one recorded fidelity per completed epoch. -/
theorem optimizer_run_termination {σ : Type} (train : σ → σ) (measure : σ → ℚ)
    (updateLr : ℕ → σ → σ) (n_epochs : ℕ) (s0 : σ) :
    ((∀ i < n_epochs, measure (train (stFrom train updateLr 0 s0 i)) ≠ 1) →
      optimizerRun train measure updateLr n_epochs s0
        = (stFrom train updateLr 0 s0 n_epochs,
           List.ofFn (fun i : Fin n_epochs =>
             measure (train (stFrom train updateLr 0 s0 i)))))
    ∧ ∀ z < n_epochs,
        (∀ i < z, measure (train (stFrom train updateLr 0 s0 i)) ≠ 1) →
        measure (train (stFrom train updateLr 0 s0 z)) = 1 →
        optimizerRun train measure updateLr n_epochs s0
          = (train (stFrom train updateLr 0 s0 z),
             List.ofFn (fun i : Fin (z + 1) =>
               measure (train (stFrom train updateLr 0 s0 i)))) :=
  ⟨optimizerLoop_no_stop train measure updateLr n_epochs 0 s0,
    fun z hz => optimizerLoop_early_stop train measure updateLr z n_epochs 0 s0 hz⟩

/-- Witness for C7: a run that converges at epoch 2 of 5 stops there with a
3-entry log, and a 2-epoch run that never converges logs 2 entries. -/
theorem optimizer_run_termination_witness :
    ((2 < 5 ∧ (∀ i < 2, measC7 (id (stFrom id lrC7 0 0 i)) ≠ 1)
        ∧ measC7 (id (stFrom id lrC7 0 0 2)) = 1)
      ∧ optimizerRun id measC7 lrC7 5 0
          = (id (stFrom id lrC7 0 0 2),
             List.ofFn (fun i : Fin 3 => measC7 (id (stFrom id lrC7 0 0 i)))))
    ∧ (∀ i < 2, measC7 (id (stFrom id lrC7 0 0 i)) ≠ 1)
      ∧ optimizerRun id measC7 lrC7 2 0
          = (stFrom id lrC7 0 0 2,
             List.ofFn (fun i : Fin 2 => measC7 (id (stFrom id lrC7 0 0 i)))) :=
  ⟨⟨⟨by decide, by decide, by decide⟩,
      (optimizer_run_termination id measC7 lrC7 5 0).2 2 (by decide) (by decide) (by decide)⟩,
    by decide,
    (optimizer_run_termination id measC7 lrC7 2 0).1 (by decide)⟩

lemma npDiffNe_cons (x : Bool) (L : List Bool) (hL : L ≠ []) :
    npDiffNe (x :: L) = (x != L.headI) :: npDiffNe L := by
  cases L with
  | nil => exact absurd rfl hL
  | cons y rest => rfl

lemma npDiffNe_replicate_false (m : ℕ) :
    npDiffNe (List.replicate m false) = List.replicate (m - 1) false := by
  induction m with
  | zero => rfl
  | succ m ih =>
    cases m with
    | zero => rfl
    | succ m' =>
      rw [List.replicate_succ, npDiffNe_cons false _ (by simp), ih]
      simp [List.replicate_succ]

lemma trueIdxs_replicate_false (m : ℕ) :
    trueIdxs (List.replicate m false) = [] := by
  induction m with
  | zero => rfl
  | succ m ih => simp [List.replicate_succ, trueIdxs, ih]

lemma nonzeroLast_cons (b : Bool) (bs : List Bool) :
    nonzeroLast (b :: bs)
      = match nonzeroLast bs with
        | some e => some (e + 1)
        | none => if b then some 0 else none := by
  unfold nonzeroLast
  cases h : (trueIdxs bs).getLast? with
  | none =>
    have hnil : trueIdxs bs = [] := List.getLast?_eq_none_iff.mp h
    cases b <;> simp [trueIdxs, hnil]
  | some e =>
    have hne : trueIdxs bs ≠ [] := by
      intro hc
      rw [hc] at h
      exact Option.noConfusion h
    have hmapne : (trueIdxs bs).map (· + 1) ≠ [] := by
      simpa using hne
    show ((if b then [0] else []) ++ (trueIdxs bs).map (· + 1)).getLast? = _
    rw [List.getLast?_append_of_ne_nil _ hmapne, List.getLast?_map]
    simp [h]

lemma nonzeroLast_replicate_false (m : ℕ) :
    nonzeroLast (List.replicate m false) = none := by
  unfold nonzeroLast
  rw [trueIdxs_replicate_false]
  rfl

/-- The last thresholded-difference transition of a log of the early-stop
shape (a block of non-near-1 entries, the converged entry, then at least
one trailing placeholder) sits exactly at the index of the converged
entry. -/
lemma nonzeroLast_npDiffNe_stop_shape (p z : ℕ) (hz : 1 ≤ z) :
    nonzeroLast (npDiffNe
        (List.replicate p false ++ true :: List.replicate z false)) = some p := by
  induction p with
  | zero =>
    cases z with
    | zero => omega
    | succ z' =>
      simp only [List.replicate_zero, List.nil_append, List.replicate_succ]
      show nonzeroLast ((true != false) :: npDiffNe (false :: List.replicate z' false))
          = some 0
      rw [show (false :: List.replicate z' false) = List.replicate (z' + 1) false from
        (List.replicate_succ false z').symm, npDiffNe_replicate_false]
      rw [nonzeroLast_cons, nonzeroLast_replicate_false]
      rfl
  | succ p ih =>
    rw [List.replicate_succ, List.cons_append,
      npDiffNe_cons false _ (by simp), nonzeroLast_cons, ih]

lemma near1_one : near1 1 = true := by
  simp only [near1, epsLog]
  norm_num

lemma near1_zero : near1 0 = false := by
  simp only [near1, epsLog]
  norm_num

/-- For an early-stop log (non-converged prefix, the converged entry `1`,
then trailing zero placeholders) the cut index is the length of the
prefix — the converged entry itself is cut away. -/
lemma end_useful_log_stop_shape (pre : List ℚ) (z : ℕ) (hz : 1 ≤ z)
    (hpre : ∀ f ∈ pre, near1 f = false) :
    end_useful_log (pre ++ 1 :: List.replicate z 0) = pre.length := by
  have hmem : ∀ b ∈ pre.map near1, b = false := by
    intro b hb
    rcases List.mem_map.mp hb with ⟨f, hf, rfl⟩
    exact hpre f hf
  have hmap : (pre ++ (1 : ℚ) :: List.replicate z 0).map near1
      = List.replicate pre.length false ++ true :: List.replicate z false := by
    rw [List.map_append, List.map_cons, List.map_replicate, near1_one, near1_zero]
    congr 1
    calc pre.map near1
        = List.replicate (pre.map near1).length false := List.eq_replicate_of_mem hmem
      _ = List.replicate pre.length false := by rw [List.length_map]
  unfold end_useful_log
  rw [hmap, nonzeroLast_npDiffNe_stop_shape pre.length z hz]

/-- C8 (amended): the history returned for saving is the log truncated at
the cut index computed from the thresholded differences.  For an early-stop
log the kept prefix is exactly the entries before the converged epoch — the
stopping epoch itself is excluded, not included; the parameter history is
truncated at the same boundary; and when neither difference vector has a
transition the full log is kept. -/
theorem get_meaningful_history_correct (pre : List ℚ) (z : ℕ)
    (params : List (List ℚ))
    (hpre : ∀ f ∈ pre, near1 f = false) (hz : 1 ≤ z) :
    (get_meaningful_history (pre ++ 1 :: List.replicate z 0) (some params)).1 = pre
    ∧ (get_meaningful_history (pre ++ 1 :: List.replicate z 0) (some params)).2
        = some (params.take pre.length)
    ∧ ∀ fids : List ℚ,
        nonzeroLast (npDiffNe (fids.map near1)) = none →
        nonzeroLast (npDiffNe (fids.map isZeroEntry)) = none →
        (get_meaningful_history fids (some params)).1 = fids := by
  refine ⟨?_, ?_, ?_⟩
  · show (pre ++ 1 :: List.replicate z 0).take
        (end_useful_log (pre ++ 1 :: List.replicate z 0)) = pre
    rw [end_useful_log_stop_shape pre z hz hpre]
    exact List.take_left pre _
  · show some ((params.take (end_useful_log (pre ++ 1 :: List.replicate z 0))))
        = some (params.take pre.length)
    rw [end_useful_log_stop_shape pre z hz hpre]
  · intro fids h1 h2
    show fids.take (end_useful_log fids) = fids
    unfold end_useful_log
    rw [h1, h2]
    exact List.take_length fids

/-- Counterexample to C8 as stated: for the early-stop log
`[1/2, 1, 0]` (one non-converged epoch, convergence at fidelity `1`, one
zero placeholder), the saved history is `[1/2]` — the stopping epoch entry
`1` is NOT included, contradicting the claim that the truncated sequence
includes the stopping epoch. -/
theorem get_meaningful_history_excludes_stop_epoch :
    (get_meaningful_history [1/2, 1, 0] none).1 = [1/2]
      ∧ (1 : ℚ) ∉ (get_meaningful_history [1/2, 1, 0] none).1 := by
  have hpre : ∀ f ∈ ([1/2] : List ℚ), near1 f = false := by
    intro f hf
    rcases List.mem_singleton.mp hf with rfl
    simp only [near1, epsLog]
    norm_num [abs_of_pos]
  have h : end_useful_log [1/2, 1, 0] = 1 := by
    have hshape : ([1/2, 1, 0] : List ℚ) = [1/2] ++ 1 :: List.replicate 1 0 := rfl
    rw [hshape, end_useful_log_stop_shape [1/2] 1 (le_refl 1) hpre]
    rfl
  constructor
  · show ([1/2, 1, 0] : List ℚ).take (end_useful_log [1/2, 1, 0]) = [1/2]
    rw [h]
    rfl
  · show (1 : ℚ) ∉ ([1/2, 1, 0] : List ℚ).take (end_useful_log [1/2, 1, 0])
    rw [h]
    show (1 : ℚ) ∉ [1/2]
    rw [List.mem_singleton]
    norm_num

/-- C9: because all shared-variable updates are applied simultaneously, the
parameter step applied at call `k` does not depend on the gradient computed
at call `k` at all; it is proportional to the gradient stored by call
`k - 1` (the `zgrads` accumulator); and on the first update call after
initialization the accumulator is zero, so the parameter vector is left
unchanged. -/
theorem adadelta_step_uses_previous_gradient {k : ℕ} (sqrtFn : ℚ → ℚ) :
    (∀ (st : AdadeltaState k) (g g' : Fin k → ℚ),
        (adadeltaStep sqrtFn st g).params = (adadeltaStep sqrtFn st g').params)
    ∧ (∀ (st : AdadeltaState k) (g1 g2 : Fin k → ℚ),
        (adadeltaStep sqrtFn (adadeltaStep sqrtFn st g1) g2).params
          = fun i => (adadeltaStep sqrtFn st g1).params i
              + sqrtFn ((adadeltaStep sqrtFn st g1).rparams2 i + 1 / 1000000)
                  / sqrtFn ((adadeltaStep sqrtFn st g1).rgrads2 i + 1 / 1000000)
                  * g1 i)
    ∧ ∀ (p g : Fin k → ℚ), (adadeltaStep sqrtFn (adadeltaInit p) g).params = p := by
  refine ⟨?_, ?_, ?_⟩
  · intro st g g'
    rfl
  · intro st g1 g2
    funext i
    show (adadeltaStep sqrtFn st g1).params i
        - (-sqrtFn ((adadeltaStep sqrtFn st g1).rparams2 i + 1 / 1000000)
            / sqrtFn ((adadeltaStep sqrtFn st g1).rgrads2 i + 1 / 1000000)
            * (adadeltaStep sqrtFn st g1).zgrads i) = _
    have hz : (adadeltaStep sqrtFn st g1).zgrads i = g1 i := rfl
    rw [hz]
    ring
  · intro p g
    funext i
    show p i - (-sqrtFn (0 + 1 / 1000000) / sqrtFn (0 + 1 / 1000000) * 0) = p i
    ring

/-- C10: whenever `run` is called with `save_after` not `None`, it raises
`AttributeError` after the loop (the invoked `_save_results` does not exist
on the class) and never persists results; and because `run` forwards its
`locals()` dict as the `save_parameters` argument of `_run`, the parameter
history is recorded regardless of the `save_parameters` value passed to
`run`. -/
theorem optimizer_run_save_after_raises :
    (∀ save_parameters len_shown_history save_after : PyVal,
        (Optimizer_run save_parameters len_shown_history save_after).historyRecorded
          = true)
    ∧ ∀ save_parameters len_shown_history save_after : PyVal,
        save_after ≠ PyVal.none →
        (Optimizer_run save_parameters len_shown_history save_after).raised
            = some ("AttributeError")
          ∧ (Optimizer_run save_parameters len_shown_history save_after).resultsPersisted
            = false := by
  have hmem : "_save_results" ∉ optimizerMethods := by decide
  constructor
  · intro sp lsh sa
    cases sa <;> simp [Optimizer_run, PyVal.truthy, hmem]
  · intro sp lsh sa hsa
    cases sa with
    | none => exact absurd rfl hsa
    | bool b => exact ⟨by simp [Optimizer_run, hmem], by simp [Optimizer_run, hmem]⟩
    | int n => exact ⟨by simp [Optimizer_run, hmem], by simp [Optimizer_run, hmem]⟩
    | str t => exact ⟨by simp [Optimizer_run, hmem], by simp [Optimizer_run, hmem]⟩
    | dict es => exact ⟨by simp [Optimizer_run, hmem], by simp [Optimizer_run, hmem]⟩

/-- Witness for C10: calling `run` with `save_parameters=False` and a
concrete `save_after` path records the history anyway, raises
`AttributeError`, and persists nothing. -/
theorem optimizer_run_save_after_raises_witness :
    (PyVal.str ("results.pickle") ≠ PyVal.none) ∧
      (Optimizer_run (.bool false) (.int 200) (.str ("results.pickle"))).historyRecorded
          = true
      ∧ (Optimizer_run (.bool false) (.int 200) (.str ("results.pickle"))).raised
          = some ("AttributeError")
      ∧ (Optimizer_run (.bool false) (.int 200) (.str ("results.pickle"))).resultsPersisted
          = false :=
  ⟨fun h => PyVal.noConfusion h,
    optimizer_run_save_after_raises.1 (.bool false) (.int 200) (.str ("results.pickle")),
    (optimizer_run_save_after_raises.2 (.bool false) (.int 200) (.str ("results.pickle"))
      (fun h => PyVal.noConfusion h)).1,
    (optimizer_run_save_after_raises.2 (.bool false) (.int 200) (.str ("results.pickle"))
      (fun h => PyVal.noConfusion h)).2⟩

lemma half_not_near1 : ∀ f ∈ ([1 / 2] : List ℚ), near1 f = false := by
  intro f hf
  rcases List.mem_singleton.mp hf with rfl
  simp only [near1, epsLog]
  norm_num [abs_of_pos]

/-- Witness for the amended C8 at the concrete early-stop log
`[1/2] ++ [1] ++ [0]`: the saved history is the prefix `[1/2]` and the
parameter history is truncated at the same boundary. -/
theorem get_meaningful_history_correct_witness :
    ((∀ f ∈ ([1 / 2] : List ℚ), near1 f = false) ∧ 1 ≤ 1) ∧
      ((get_meaningful_history ([1 / 2] ++ 1 :: List.replicate 1 0) (some [[5]])).1 = [1 / 2]
        ∧ (get_meaningful_history ([1 / 2] ++ 1 :: List.replicate 1 0) (some [[5]])).2
            = some (([[5]] : List (List ℚ)).take ([(1 : ℚ) / 2] : List ℚ).length)
        ∧ ∀ fids : List ℚ,
            nonzeroLast (npDiffNe (fids.map near1)) = none →
            nonzeroLast (npDiffNe (fids.map isZeroEntry)) = none →
            (get_meaningful_history fids (some [[5]])).1 = fids) :=
  ⟨⟨half_not_near1, le_refl 1⟩,
    get_meaningful_history_correct [1 / 2] 1 [[5]] half_not_near1 (le_refl 1)⟩
